import Mathlib

/-!
Verification development for the Git-Visual dashboard core: a shallow
embedding of the frontend data-transformation pipeline (dataProcessor.js),
the event-bus wiring and analysis control flow (eventBus.js / main.js), and
the metro commit-graph layout (commitGraph.js), together with theorems about
the properties the design documentation states for them.
-/

namespace GitVisual

/-! ## Generic list utilities mirroring the JavaScript runtime primitives -/

/-- One step of a stable descending insertion: an element is placed before
the first element whose key is less than or equal to its own.  Together with
sortDescBy this models the stable Array.prototype.sort (ES2019) under the
comparator (a, b) => key(b) - key(a). -/
def insertDescBy (key : α → Nat) (x : α) : List α → List α
  | [] => [x]
  | y :: ys => if key y ≤ key x then x :: y :: ys else y :: insertDescBy key x ys

/-- Stable sort, descending by key: models the ES2019 stable
Array.prototype.sort with comparator (a, b) => key(b) - key(a). -/
def sortDescBy (key : α → Nat) : List α → List α
  | [] => []
  | x :: xs => insertDescBy key x (sortDescBy key xs)

/-- One step of a stable ascending insertion by an integer key. -/
def insertAscBy (key : α → Int) (x : α) : List α → List α
  | [] => [x]
  | y :: ys => if key x ≤ key y then x :: y :: ys else y :: insertAscBy key x ys

/-- Stable sort, ascending by key: models the ES2019 stable
Array.prototype.sort with comparator (a, b) => key(a) - key(b). -/
def sortAscBy (key : α → Int) : List α → List α
  | [] => []
  | x :: xs => insertAscBy key x (sortAscBy key xs)

/-- Insertion-order deduplication with an accumulator of already-seen
elements; models iteration over a JavaScript Set or Map keyed by first
occurrence. -/
def dedupFirstAux [DecidableEq α] (seen : List α) : List α → List α
  | [] => []
  | x :: xs =>
      if x ∈ seen then dedupFirstAux seen xs
      else x :: dedupFirstAux (x :: seen) xs

/-- First-occurrence deduplication: the distinct elements of a list in the
order each first appears, as produced by new Set(l) or by the key order of
d3.group / d3.rollup. -/
def dedupFirst [DecidableEq α] (l : List α) : List α := dedupFirstAux [] l

/-- Grouping with keys in first-encounter order and group members in input
order; extensionally the behavior of d3.group (whose InternMap interns Date
keys by their numeric value, which the integer timestamps model directly). -/
def groupByFirst [DecidableEq κ] (f : α → κ) (l : List α) : List (κ × List α) :=
  (dedupFirst (l.map f)).map (fun k => (k, l.filter (fun x => decide (f x = k))))


/-! ## Data model

CommitRecord objects as produced by the mining backend and consumed by
dataProcessor.js; timestamps are integer epoch milliseconds (the value of a
JavaScript Date), insertions and deletions are line counts. -/

structure Commit where
  hash : String
  parentHashes : List String
  author : String
  date : Int
  insertions : Nat
  deletions : Nat
  impact : Nat
  msg : String
deriving DecidableEq

/-- Raw recursive file-tree object from the backend: name, optional LoC
value, optional extension, author list (absent modelled as empty, which the
code treats identically), and children (a node with no children is a leaf,
exactly as d3.hierarchy treats an absent or empty children array). -/
inductive FileTree where
  | node (name : String) (value : Option Nat) (extension : Option String)
      (authors : List String) (children : List FileTree)

/-- Numeric coercion used by the hierarchy value accessor
d => d.value ? d.value : 0 (absent or zero both give 0). -/
def jsVal : Option Nat → Nat
  | some v => v
  | none => 0

/-- Node of the processed d3 hierarchy: the computed subtree value, the
attached deduplicated author list, the original data's own author list, and
the value-sorted children. -/
inductive HierNode where
  | mk (name : String) (dataAuthors : List String) (value : Nat)
      (authors : List String) (children : List HierNode)

def HierNode.value : HierNode → Nat
  | .mk _ _ v _ _ => v

def HierNode.authors : HierNode → List String
  | .mk _ _ _ a _ => a

def HierNode.dataAuthors : HierNode → List String
  | .mk _ a _ _ _ => a

def HierNode.children : HierNode → List HierNode
  | .mk _ _ _ _ cs => cs

mutual

/-- Sum of the leaf values of a raw file tree, an absent leaf value counting
as 0 (the reference value for the aggregated hierarchy). -/
def FileTree.leafSum : FileTree → Nat
  | .node _ v _ _ [] => jsVal v
  | .node _ _ _ _ (c :: cs) => FileTree.leafSumList (c :: cs)

def FileTree.leafSumList : List FileTree → Nat
  | [] => 0
  | c :: cs => FileTree.leafSum c + FileTree.leafSumList cs

end

mutual

/-- Value fields appear only on leaves (interior nodes carry no value). -/
def leafValuesOnly : FileTree → Bool
  | .node _ _ _ _ [] => true
  | .node _ v _ _ (c :: cs) => v.isNone && leafValuesOnlyList (c :: cs)

def leafValuesOnlyList : List FileTree → Bool
  | [] => true
  | c :: cs => leafValuesOnly c && leafValuesOnlyList cs

end

mutual

/-- Author lists appear only on leaves (interior nodes carry none). -/
def authorsOnLeavesOnly : FileTree → Bool
  | .node _ _ _ _ [] => true
  | .node _ _ _ a (c :: cs) => a.isEmpty && authorsOnLeavesOnlyList (c :: cs)

def authorsOnLeavesOnlyList : List FileTree → Bool
  | [] => true
  | c :: cs => authorsOnLeavesOnly c && authorsOnLeavesOnlyList cs

end

mutual

/-- DataProcessor.processHierarchy on one subtree: children are built
recursively, sorted descending by their computed value (the stable d3 sort
under (a, b) => b.value - a.value), the node value is the value accessor
plus the children's values (d3.hierarchy.sum), and the post-order authors
pass collects the node's own data authors followed by the children's
already-computed author lists into an insertion-ordered Set. -/
def buildHier : FileTree → HierNode
  | .node n v _ a cs =>
      let kids := sortDescBy HierNode.value (buildHierList cs)
      .mk n a (jsVal v + (kids.map HierNode.value).sum)
        (dedupFirst (a ++ kids.flatMap HierNode.authors)) kids

def buildHierList : List FileTree → List HierNode
  | [] => []
  | c :: cs => buildHier c :: buildHierList cs

end

mutual

/-- All nodes of a processed hierarchy (the node itself and, recursively,
its descendants). -/
def hierNodes : HierNode → List HierNode
  | .mk n da v a cs => .mk n da v a cs :: hierNodesList cs

def hierNodesList : List HierNode → List HierNode
  | [] => []
  | c :: cs => hierNodes c ++ hierNodesList cs

end

mutual

/-- Concatenated original author lists of the leaves beneath a hierarchy
node. -/
def hierLeafAuthors : HierNode → List String
  | .mk _ da _ _ [] => da
  | .mk _ _ _ _ (c :: cs) => hierLeafAuthorsList (c :: cs)

def hierLeafAuthorsList : List HierNode → List String
  | [] => []
  | c :: cs => hierLeafAuthors c ++ hierLeafAuthorsList cs

end

/-! ## DataProcessor (src/frontend/js/dataProcessor.js) -/

namespace DataProcessor

/-- processHierarchy: null for an absent tree, otherwise the processed
hierarchy root. -/
def processHierarchy : Option FileTree → Option HierNode
  | none => none
  | some t => some (buildHier t)

/-- Label under which non-top authors are accumulated. -/
def otherLabel : String := "Others"

def msPerWeek : Int := 604800000

/-- Week bucketing: models d3.timeWeek's flooring of a timestamp to the
start of its containing calendar week. -/
def timeWeek (t : Int) : Int := t - t.emod msPerWeek

/-- Step 1 of processCommitsByAuthor: parse dates and stable-sort the
commits oldest to newest. -/
def cleanHistory (history : List Commit) : List Commit :=
  sortAscBy Commit.date history

/-- Total insertions attributed to one author in a commit list. -/
def totalInsertions (h : List Commit) (a : String) : Nat :=
  ((h.filter (fun c => decide (c.author = a))).map Commit.insertions).sum

/-- Step 2: per-author insertion totals, keyed in first-appearance order
(d3.rollup over the sorted history). -/
def authorTotals (h : List Commit) : List (String × Nat) :=
  (dedupFirst (h.map Commit.author)).map (fun a => (a, totalInsertions h a))

/-- Top authors: totals sorted descending (stable), first ten, keys only. -/
def topAuthors (h : List Commit) : List String :=
  ((sortDescBy Prod.snd (authorTotals h)).take 10).map Prod.fst

/-- Column a commit's insertions are added to: its author when selected,
the Others column otherwise. -/
def bucketKey (top : List String) (c : Commit) : String :=
  if c.author ∈ top then c.author else otherLabel

/-- Point update of a row's columns. -/
def bumpCol (m : String → Nat) (k : String) (v : Nat) : String → Nat :=
  fun q => if q = k then m q + v else m q

/-- Columns of one weekly row: every column starts at 0 (the explicit
initialization of the selected authors and Others included) and each commit
of the week adds its insertions to its bucket column. -/
def colsOf (top : List String) (commits : List Commit) : String → Nat :=
  commits.foldl (fun m c => bumpCol m (bucketKey top c) c.insertions) (fun _ => 0)

structure SeriesRow where
  date : Int
  cols : String → Nat

structure SeriesData where
  data : List SeriesRow
  keys : List String

/-- Step 3: one row per week present in the sorted history, in
first-encounter order (d3.group). -/
def weekRows (ch : List Commit) (top : List String) : List SeriesRow :=
  (groupByFirst (fun c => timeWeek c.date) ch).map
    (fun g => { date := g.1, cols := colsOf top g.2 })

/-- Others is appended to the key list only when some row carries a positive
Others value. -/
def hasOthersRow (rows : List SeriesRow) : Bool :=
  rows.any (fun r => decide (0 < r.cols otherLabel))

/-- Body of processCommitsByAuthor for a present history: the weekly
stacked rows (sorted by week) and the key list of top authors plus, when
populated, Others. -/
def processCommitsByAuthorNE (history : List Commit) : SeriesData :=
  let ch := cleanHistory history
  let top := topAuthors ch
  let rows := sortAscBy SeriesRow.date (weekRows ch top)
  { data := rows,
    keys := top ++ (if hasOthersRow rows then [otherLabel] else []) }

/-- processCommitsByAuthor: empty result for missing or empty history,
otherwise the weekly stacked rows and keys. -/
def processCommitsByAuthor : Option (List Commit) → SeriesData
  | none => { data := [], keys := [] }
  | some history =>
      if history.isEmpty then { data := [], keys := [] }
      else processCommitsByAuthorNE history

structure ScatterPoint where
  hash : String
  author : String
  msg : String
  impact : Nat
  date : Int
deriving DecidableEq

/-- processScatterplotData: empty for missing or empty history, otherwise
the commits mapped to scatter points and stable-sorted by date ascending. -/
def processScatterplotData : Option (List Commit) → List ScatterPoint
  | none => []
  | some history =>
      if history.isEmpty then []
      else sortAscBy ScatterPoint.date (history.map (fun c =>
        { hash := c.hash, author := c.author, msg := c.msg,
          impact := c.impact, date := c.date }))

/-- Grand total of the stacked series: every key column summed over every
row (the quantity the conservation property compares to total insertions). -/
def seriesGrandTotal (s : SeriesData) : Nat :=
  (s.data.map (fun r => (s.keys.map r.cols).sum)).sum

end DataProcessor

/-! ## Commit graph -/

structure GraphNode where
  hash : String
  author : String
  date : Int
  impact : Nat
  msg : String
deriving DecidableEq

structure GraphLink where
  source : String
  target : String
deriving DecidableEq

structure GraphData where
  nodes : List GraphNode
  links : List GraphLink
deriving DecidableEq

def commitToGraphNode (c : Commit) : GraphNode :=
  { hash := c.hash, author := c.author, date := c.date,
    impact := c.impact, msg := c.msg }

namespace DataProcessor

/-- Modelled from the spec: DataProcessor.processCommitGraph is invoked by
the dashboard update in main but its definition is not among the provided
sources; per the design's CommitGraphBuilder contract it builds one node per
distinct commit hash and one edge per (parent hash, commit hash) pair whose
parent hash is present among the built nodes, silently dropping edges to
absent parents. -/
def processCommitGraph (history : List Commit) : GraphData :=
  let hashes := dedupFirst (history.map Commit.hash)
  { nodes := hashes.filterMap (fun hsh =>
      (history.find? (fun c => decide (c.hash = hsh))).map commitToGraphNode),
    links := history.flatMap (fun c =>
      (c.parentHashes.filter (fun p => decide (p ∈ hashes))).map
        (fun p => { source := p, target := c.hash })) }

end DataProcessor

/-! ## Metro commit-graph layout (commitGraph.js, deterministic variant) -/

/-- Persistent scale state of the metro CommitGraph instance: the time-scale
domain (also written by filterByDate) and the point-scale author domain. -/
structure MetroState where
  xDomain : Option (Int × Int)
  yDomain : List String
deriving DecidableEq

/-- d3.extent over the node dates. -/
def extentDates (ns : List GraphNode) : Option (Int × Int) :=
  match (ns.map GraphNode.date).min?, (ns.map GraphNode.date).max? with
  | some a, some b => some (a, b)
  | _, _ => none

/-- Linear time scale position: maps the domain onto the range [0, w]; a
degenerate domain maps to the midpoint as d3.scaleLinear does, an unset
domain (no nodes, hence never queried) to 0. -/
def scaleLinearPos (dom : Option (Int × Int)) (w : ℚ) (t : Int) : ℚ :=
  match dom with
  | none => 0
  | some (d0, d1) =>
      if d1 = d0 then w / 2
      else (((t : ℚ) - (d0 : ℚ)) / ((d1 : ℚ) - (d0 : ℚ))) * w

/-- Point scale with padding 0.5 over the range [0, h], as d3.scalePoint
computes lane centers: equal steps with half-step outer padding. -/
def scalePointPos (domain : List String) (h : ℚ) (a : String) : ℚ :=
  let n : ℚ := domain.length
  let step : ℚ := h / max 1 n
  let start : ℚ := (h - step * (n - 1)) / 2
  start + step * (domain.indexOf a : ℚ)

/-- Lane and coordinate assignment of the metro update for a node list:
per-commit (hash, lane index, x, y), with one lane per distinct author in
first-appearance order, x a linear map of the timestamp and y the lane's
point-scale center.  Computed entirely from the incoming data. -/
def metroAssignments (ns : List GraphNode) (w h : ℚ) :
    List (String × Nat × ℚ × ℚ) :=
  let authors := dedupFirst (ns.map GraphNode.author)
  ns.map (fun nd =>
    (nd.hash, authors.indexOf nd.author,
     scaleLinearPos (extentDates ns) w nd.date,
     scalePointPos authors h nd.author))

/-- CommitGraph.update of the metro variant as a state transition: it
re-derives both scale domains from the incoming data before positioning, and
returns the rendered assignments. -/
def metroUpdate (s : MetroState) (data : GraphData) (w h : ℚ) :
    MetroState × List (String × Nat × ℚ × ℚ) :=
  ({ xDomain := extentDates data.nodes,
     yDomain := dedupFirst (data.nodes.map GraphNode.author) },
   metroAssignments data.nodes w h)

/-- CommitGraph.filterByDate overwrites the persisted time-scale domain
(the prior state a subsequent update must not depend on). -/
def metroFilterByDate (s : MetroState) (range : Int × Int) : MetroState :=
  { s with xDomain := some range }

/-! ## Event bus (eventBus.js over d3.dispatch) and the main.js handlers -/

/-- The four chart instances main.js wires to the selectAuthor event. -/
inductive ChartId where
  | stream
  | scatter
  | commitGraph
  | sunburst
deriving DecidableEq

/-- Subscriber registry of the d3.dispatch bus: (event kind, subscriber
name) pairs in registration order. -/
structure LinkageBus where
  subs : List (String × String)
deriving DecidableEq

def busSubscribers (bus : LinkageBus) (kind : String) : List String :=
  (bus.subs.filter (fun s => decide (s.1 = kind))).map Prod.snd

/-- dispatch.call(kind, that, ...): invokes every callback registered for
the kind, in registration order, with the emitting source bound as the
callback context; d3.dispatch skips no callback.  The result lists the
(subscriber, received source) invocations in order. -/
def busEmit (bus : LinkageBus) (kind : String) (source : String) :
    List (String × String) :=
  (busSubscribers bus kind).map (fun n => (n, source))

/-- The selectAuthor handler registered in main.js init, as the list of
chart highlight notifications it performs in program order: with an author
selected it updates the streamgraph, scatterplot and commit graph each
guarded by source inequality, then the sunburst unconditionally, then the
commit graph once more unconditionally; with the selection cleared it resets
the sunburst unconditionally and the other three guarded by source
inequality. -/
def selectAuthorDeliveries (source : Option ChartId) (author : Option String) :
    List ChartId :=
  match author with
  | some _ =>
      (if source = some .stream then [] else [.stream]) ++
      (if source = some .scatter then [] else [.scatter]) ++
      (if source = some .commitGraph then [] else [.commitGraph]) ++
      [.sunburst] ++ [.commitGraph]
  | none =>
      [.sunburst] ++
      (if source = some .stream then [] else [.stream]) ++
      (if source = some .scatter then [] else [.scatter]) ++
      (if source = some .commitGraph then [] else [.commitGraph])

/-! ## Analysis control flow (main.js handleAnalyze) -/

/-- Cross-refresh session state alive when the user starts a new analysis:
the pending poll timer handle, the event-bus subscriber registry, and the
per-element geometry retained for transition interpolation (the _current
values the charts attach to rendered elements). -/
structure AppSession where
  pollingTimer : Option Nat
  busSubs : List (String × String)
  geometryCache : List (String × Nat)
deriving DecidableEq

/-- Session-reset prefix of handleAnalyze before the new load is issued: it
clears a pending poll timer (clearTimeout plus nulling the handle) and
touches nothing else. -/
def handleAnalyzeReset (s : AppSession) : AppSession :=
  { s with pollingTimer := none }

/-- Outcome of one handleAnalyze run after a successful fetch. -/
structure AnalyzeOutcome where
  hierarchyShown : Option HierNode
  seriesShown : DataProcessor.SeriesData
  scatterShown : List DataProcessor.ScatterPoint
  pollingScheduled : Bool
  alertError : Option String

/-- Success-path body of handleAnalyze for a fetched payload: the dashboard
is updated first (an empty history array is truthy, so every view receives
its empty dataset), then data.history[0].hash is read; on an empty history
that member access throws a TypeError which the surrounding try/catch turns
into the generic error alert, and the polling timer - scheduled only after
the read - is never set. -/
def handleAnalyzeRun (fileTree : Option FileTree) (history : List Commit) :
    AnalyzeOutcome :=
  let hier := DataProcessor.processHierarchy fileTree
  let series := DataProcessor.processCommitsByAuthor (some history)
  let scatter := DataProcessor.processScatterplotData (some history)
  match history.head? with
  | none =>
      { hierarchyShown := hier, seriesShown := series, scatterShown := scatter,
        pollingScheduled := false,
        alertError := some "TypeError: cannot read hash of undefined" }
  | some _ =>
      { hierarchyShown := hier, seriesShown := series, scatterShown := scatter,
        pollingScheduled := true, alertError := none }

/-! ## Example commits used by concrete scenarios -/

def exC1 : Commit :=
  { hash := "c1", parentHashes := [], author := "alice", date := 0,
    insertions := 1, deletions := 0, impact := 1, msg := "m1" }

def exC2 : Commit :=
  { hash := "c2", parentHashes := ["c1"], author := "bob", date := 1,
    insertions := 1, deletions := 0, impact := 1, msg := "m2" }

def exC3 : Commit :=
  { hash := "c3", parentHashes := ["missing"], author := "alice", date := 2,
    insertions := 1, deletions := 0, impact := 1, msg := "m3" }

def exTree : FileTree :=
  .node "root" none none []
    [.node "a.js" (some 100) (some "js") ["alice"] [],
     .node "b.py" (some 50) (some "py") ["bob"] []]

def exOthersCommit : Commit :=
  { hash := "h1", parentHashes := [], author := "Others", date := 0,
    insertions := 5, deletions := 0, impact := 5, msg := "m" }

def exA1 : Commit :=
  { hash := "a1", parentHashes := [], author := "alice", date := 0,
    insertions := 10, deletions := 0, impact := 10, msg := "w1" }

def exA2 : Commit :=
  { hash := "a2", parentHashes := ["a1"], author := "alice", date := 1,
    insertions := 20, deletions := 0, impact := 20, msg := "w2" }

def exA3 : Commit :=
  { hash := "a3", parentHashes := ["a2"], author := "alice", date := 2,
    insertions := 5, deletions := 0, impact := 5, msg := "w3" }

def exB1 : Commit :=
  { hash := "b1", parentHashes := [], author := "bob", date := 3,
    insertions := 3, deletions := 0, impact := 3, msg := "w4" }

/-! ## Theorems -/

theorem insertDescBy_perm (key : α → Nat) (x : α) (l : List α) :
    List.Perm (insertDescBy key x l) (x :: l) := by
  induction l with
  | nil => exact List.Perm.refl _
  | cons y ys ih =>
      by_cases h : key y ≤ key x
      · simp [insertDescBy, h]
      · simp only [insertDescBy, if_neg h]
        exact (List.Perm.cons y ih).trans (List.Perm.swap x y ys)

theorem sortDescBy_perm (key : α → Nat) (l : List α) :
    List.Perm (sortDescBy key l) l := by
  induction l with
  | nil => exact List.Perm.refl _
  | cons x xs ih =>
      exact (insertDescBy_perm key x (sortDescBy key xs)).trans (List.Perm.cons x ih)

theorem insertAscBy_perm (key : α → Int) (x : α) (l : List α) :
    List.Perm (insertAscBy key x l) (x :: l) := by
  induction l with
  | nil => exact List.Perm.refl _
  | cons y ys ih =>
      by_cases h : key x ≤ key y
      · simp [insertAscBy, h]
      · simp only [insertAscBy, if_neg h]
        exact (List.Perm.cons y ih).trans (List.Perm.swap x y ys)

theorem sortAscBy_perm (key : α → Int) (l : List α) :
    List.Perm (sortAscBy key l) l := by
  induction l with
  | nil => exact List.Perm.refl _
  | cons x xs ih =>
      exact (insertAscBy_perm key x (sortAscBy key xs)).trans (List.Perm.cons x ih)

theorem mem_insertDescBy {key : α → Nat} {x a : α} {l : List α} :
    a ∈ insertDescBy key x l ↔ a = x ∨ a ∈ l := by
  rw [(insertDescBy_perm key x l).mem_iff, List.mem_cons]

theorem mem_sortDescBy {key : α → Nat} {a : α} {l : List α} :
    a ∈ sortDescBy key l ↔ a ∈ l :=
  (sortDescBy_perm key l).mem_iff

/-- Stability of the descending insertion: inserting an element that relates by
R to everything already present preserves the combined order
"strictly larger key, or equal key and R". -/
theorem insertDescBy_pairwise {key : α → Nat} {R : α → α → Prop} {x : α} {s : List α}
    (hs : s.Pairwise (fun a b => key b < key a ∨ (key a = key b ∧ R a b)))
    (hx : ∀ z ∈ s, R x z) :
    (insertDescBy key x s).Pairwise
      (fun a b => key b < key a ∨ (key a = key b ∧ R a b)) := by
  induction s with
  | nil => simp [insertDescBy]
  | cons y ys ih =>
      rw [List.pairwise_cons] at hs
      obtain ⟨hy, hys⟩ := hs
      by_cases h : key y ≤ key x
      · simp only [insertDescBy, if_pos h]
        refine List.pairwise_cons.mpr ⟨?_, List.pairwise_cons.mpr ⟨hy, hys⟩⟩
        intro z hz
        rcases List.mem_cons.mp hz with hzy | hzys
        · subst hzy
          rcases Nat.lt_or_ge (key z) (key x) with hlt | hge
          · exact Or.inl hlt
          · exact Or.inr ⟨Nat.le_antisymm hge h, hx z hz⟩
        · have hzle : key z ≤ key y := by
            rcases hy z hzys with h1 | h2
            · exact Nat.le_of_lt h1
            · exact Nat.le_of_eq h2.1.symm
          rcases Nat.lt_or_ge (key z) (key x) with hlt | hge
          · exact Or.inl hlt
          · exact Or.inr ⟨Nat.le_antisymm hge (Nat.le_trans hzle h), hx z hz⟩
      · simp only [insertDescBy, if_neg h]
        refine List.pairwise_cons.mpr
          ⟨?_, ih hys (fun z hz => hx z (List.mem_cons_of_mem _ hz))⟩
        intro z hz
        rcases mem_insertDescBy.mp hz with hzx | hzys
        · subst hzx
          exact Or.inl (Nat.lt_of_not_le h)
        · exact hy z hzys

/-- The stable descending sort of a list whose original order satisfies R is
ordered by key descending with ties resolved by R (stability). -/
theorem sortDescBy_pairwise {key : α → Nat} {R : α → α → Prop} {l : List α}
    (hl : l.Pairwise R) :
    (sortDescBy key l).Pairwise
      (fun a b => key b < key a ∨ (key a = key b ∧ R a b)) := by
  induction l with
  | nil => simp [sortDescBy]
  | cons x xs ih =>
      rw [List.pairwise_cons] at hl
      obtain ⟨hx, hxs⟩ := hl
      exact insertDescBy_pairwise (ih hxs)
        (fun z hz => hx z (mem_sortDescBy.mp hz))

theorem mem_dedupFirstAux [DecidableEq α] {a : α} {seen l : List α} :
    a ∈ dedupFirstAux seen l ↔ a ∈ l ∧ a ∉ seen := by
  induction l generalizing seen with
  | nil => simp [dedupFirstAux]
  | cons x xs ih =>
      by_cases hax : a = x
      · subst hax
        by_cases hx : a ∈ seen <;> simp [dedupFirstAux, hx, ih]
      · by_cases hx : x ∈ seen <;> simp [dedupFirstAux, hx, hax, ih, List.mem_cons]

theorem mem_dedupFirst [DecidableEq α] {a : α} {l : List α} :
    a ∈ dedupFirst l ↔ a ∈ l := by
  simp [dedupFirst, mem_dedupFirstAux]

theorem nodup_dedupFirstAux [DecidableEq α] (seen l : List α) :
    (dedupFirstAux seen l).Nodup := by
  induction l generalizing seen with
  | nil => simp [dedupFirstAux]
  | cons x xs ih =>
      by_cases hx : x ∈ seen
      · simpa [dedupFirstAux, if_pos hx] using ih seen
      · simp only [dedupFirstAux, if_neg hx]
        refine List.nodup_cons.mpr ⟨?_, ih (x :: seen)⟩
        intro hc
        exact (mem_dedupFirstAux.mp hc).2 (List.mem_cons_self x seen)

theorem nodup_dedupFirst [DecidableEq α] (l : List α) : (dedupFirst l).Nodup :=
  nodup_dedupFirstAux [] l

/-- First-occurrence deduplication lists elements in order of strictly
increasing first-occurrence index in the original list. -/
theorem pairwise_indexOf_dedupFirstAux [DecidableEq α] (seen l : List α) :
    (dedupFirstAux seen l).Pairwise (fun a b => l.indexOf a < l.indexOf b) := by
  induction l generalizing seen with
  | nil => simp [dedupFirstAux]
  | cons x xs ih =>
      have transfer : ∀ seen2 : List α, x ∈ seen2 →
          (dedupFirstAux seen2 xs).Pairwise
            (fun a b => (x :: xs).indexOf a < (x :: xs).indexOf b) := by
        intro seen2 hx2
        refine (ih seen2).imp_of_mem ?_
        intro a b ha hb hab
        have hax : x ≠ a := fun hc =>
          (mem_dedupFirstAux.mp ha).2 (hc ▸ hx2)
        have hbx : x ≠ b := fun hc =>
          (mem_dedupFirstAux.mp hb).2 (hc ▸ hx2)
        rw [List.indexOf_cons_ne _ hax, List.indexOf_cons_ne _ hbx]
        omega
      by_cases hx : x ∈ seen
      · simpa [dedupFirstAux, if_pos hx] using transfer seen hx
      · simp only [dedupFirstAux, if_neg hx]
        refine List.pairwise_cons.mpr
          ⟨?_, transfer (x :: seen) (List.mem_cons_self x seen)⟩
        intro b hb
        have hbx : x ≠ b := fun hc =>
          (mem_dedupFirstAux.mp hb).2 (hc ▸ List.mem_cons_self x seen)
        rw [List.indexOf_cons_self, List.indexOf_cons_ne _ hbx]
        omega

theorem pairwise_indexOf_dedupFirst [DecidableEq α] (l : List α) :
    (dedupFirst l).Pairwise (fun a b => l.indexOf a < l.indexOf b) :=
  pairwise_indexOf_dedupFirstAux [] l

theorem sum_map_add (g h : κ → Nat) (K : List κ) :
    (K.map (fun k => g k + h k)).sum = (K.map g).sum + (K.map h).sum := by
  induction K with
  | nil => rfl
  | cons y ys ih => simp [ih]; omega

theorem sum_map_ite_eq [DecidableEq κ] {K : List κ} (hK : K.Nodup) (k : κ) (v : Nat) :
    (K.map (fun x => if k = x then v else 0)).sum = if k ∈ K then v else 0 := by
  induction K with
  | nil => simp
  | cons y ys ih =>
      rw [List.nodup_cons] at hK
      by_cases hky : k = y
      · subst hky
        simp [hK.1, ih hK.2]
      · simp [hky, Ne.symm hky, ih hK.2, List.mem_cons]

/-- Summing group-by-group over a duplicate-free key list equals summing over
the elements whose key is in the list. -/
theorem sum_filter_partition [DecidableEq κ] (f : α → κ) (v : α → Nat)
    {K : List κ} (hK : K.Nodup) (l : List α) :
    (K.map (fun k => ((l.filter (fun x => decide (f x = k))).map v).sum)).sum
      = ((l.filter (fun x => decide (f x ∈ K))).map v).sum := by
  induction l with
  | nil => simp
  | cons x l ih =>
      have hstep :
          (K.map (fun k => (((x :: l).filter (fun y => decide (f y = k))).map v).sum))
            = K.map (fun k =>
                (if f x = k then v x else 0)
                  + ((l.filter (fun y => decide (f y = k))).map v).sum) := by
        refine List.map_congr_left ?_
        intro k hk
        by_cases hfx : f x = k
        · simp [List.filter_cons, hfx]
        · simp [List.filter_cons, hfx]
      rw [hstep, sum_map_add, sum_map_ite_eq hK, ih, List.filter_cons]
      by_cases hmem : f x ∈ K
      · simp [hmem]
      · simp [hmem]

/-- Dropping elements whose weight is zero does not change a sum. -/
theorem sum_filter_eq_sum_of_zero (p : α → Bool) (v : α → Nat) (l : List α)
    (h : ∀ x ∈ l, p x = false → v x = 0) :
    ((l.filter p).map v).sum = (l.map v).sum := by
  induction l with
  | nil => rfl
  | cons x l ih =>
      have ihl := ih (fun y hy => h y (List.mem_cons_of_mem _ hy))
      rw [List.filter_cons]
      by_cases hp : p x
      · simp [hp, ihl]
      · have hz := h x (List.mem_cons_self _ _) (by simpa using hp)
        simp [hp, ihl, hz]
/-- Custom induction principle for the nested file-tree type. -/
theorem fileTreeInd (P : FileTree → Prop)
    (h : ∀ n v e a cs, (∀ c ∈ cs, P c) → P (.node n v e a cs)) : ∀ t, P t := by
  have key : ∀ m t, sizeOf t ≤ m → P t := by
    intro m
    induction m with
    | zero =>
        intro t ht
        cases t with
        | node n v e a cs => simp at ht
    | succ m ih =>
        intro t ht
        cases t with
        | node n v e a cs =>
            apply h
            intro c hc
            apply ih
            have hlt := List.sizeOf_lt_of_mem hc
            simp at ht
            omega
  intro t
  exact key (sizeOf t) t (Nat.le_refl _)

/-- C9: for absent or empty input each pipeline stage independently returns
its empty-but-valid result: processHierarchy returns null for an absent
file tree, processCommitsByAuthor returns an empty row list and an empty
key list for a missing or empty history, and processScatterplotData
returns an empty array. -/
theorem empty_inputs_yield_empty_results :
    DataProcessor.processHierarchy none = none ∧
    DataProcessor.processCommitsByAuthor none = { data := [], keys := [] } ∧
    DataProcessor.processCommitsByAuthor (some []) = { data := [], keys := [] } ∧
    DataProcessor.processScatterplotData none = [] ∧
    DataProcessor.processScatterplotData (some []) = [] :=
  ⟨rfl, rfl, rfl, rfl, rfl⟩

/-- C10: when the fetched payload carries an empty history array,
handleAnalyze still updates the dashboard (empty datasets reach the views),
then throws a TypeError reading data.history[0].hash, so the error alert is
raised and the polling loop is never scheduled. -/
theorem empty_history_triggers_type_error (ft : Option FileTree) :
    (handleAnalyzeRun ft []).alertError =
        some "TypeError: cannot read hash of undefined" ∧
    (handleAnalyzeRun ft []).pollingScheduled = false ∧
    (handleAnalyzeRun ft []).seriesShown = { data := [], keys := [] } ∧
    (handleAnalyzeRun ft []).scatterShown = [] :=
  ⟨rfl, rfl, rfl, rfl⟩

/-- C4: two metro commit-graph update runs on identical commit data produce
identical lane and coordinate assignments, and identical resulting scale
state, whatever the prior states of the two instances were (the update
re-derives every scale domain from the incoming data). -/
theorem metro_layout_two_run_deterministic (s1 s2 : MetroState)
    (data : GraphData) (w h : ℚ) :
    (metroUpdate s1 data w h).2 = (metroUpdate s2 data w h).2 ∧
    (metroUpdate s1 data w h).1 = (metroUpdate s2 data w h).1 :=
  ⟨rfl, rfl⟩

/-- C8 counterexample: at a session state holding a live subscription and a
cached element geometry, the session-reset step of handleAnalyze cancels
the pending poll check but leaves the event-bus subscriptions and the
cached geometry untouched, contradicting the claim that it clears every
subscription and resets the geometry cache. -/
theorem analyze_reset_counterexample :
    (handleAnalyzeReset
        { pollingTimer := some 7, busSubs := [("selectAuthor", "main")],
          geometryCache := [("arc:a.js", 42)] }).pollingTimer = none ∧
    (handleAnalyzeReset
        { pollingTimer := some 7, busSubs := [("selectAuthor", "main")],
          geometryCache := [("arc:a.js", 42)] }).busSubs =
      [("selectAuthor", "main")] ∧
    (handleAnalyzeReset
        { pollingTimer := some 7, busSubs := [("selectAuthor", "main")],
          geometryCache := [("arc:a.js", 42)] }).geometryCache =
      [("arc:a.js", 42)] :=
  ⟨rfl, rfl, rfl⟩

/-- C8 amended: starting a new analysis cancels any pending scheduled poll
check before issuing the new load, and that is the only cross-refresh
session state it resets: event-bus subscriptions and cached per-element
geometry pass through unchanged. -/
theorem analyze_reset_cancels_only_timer (s : AppSession) :
    (handleAnalyzeReset s).pollingTimer = none ∧
    (handleAnalyzeReset s).busSubs = s.busSubs ∧
    (handleAnalyzeReset s).geometryCache = s.geometryCache :=
  ⟨rfl, rfl, rfl⟩

/-- C6 counterexample: the bus invokes the callback registered under the
emitting source identity (subscriber S receives its own emission), and the
selectAuthor handler notifies the commit graph even when the commit graph
is itself the source - and twice when it is not - contradicting
"every subscriber except the source, exactly once each". -/
theorem bus_no_self_exclusion_counterexample :
    busEmit { subs := [("selectAuthor", "S"), ("selectAuthor", "T")] }
        "selectAuthor" "S" = [("S", "S"), ("T", "S")] ∧
    (selectAuthorDeliveries (some .commitGraph) (some "alice")).count
        .commitGraph = 1 ∧
    (selectAuthorDeliveries (some .stream) (some "alice")).count
        .commitGraph = 2 := by
  refine ⟨?_, ?_, ?_⟩ <;> decide

/-- C6 amended: dispatch.call delivers every registered subscriber of the
kind exactly as often as it is registered, in registration order, with the
source identity passed as context and no subscriber skipped by the bus;
self-exclusion lives in the selectAuthor handler, which skips the source
for the streamgraph and the scatterplot but always notifies the sunburst
once and the commit graph unconditionally - once when the commit graph is
the source, twice otherwise. -/
theorem bus_delivery_characterization (bus : LinkageBus) (kind source : String)
    (src : Option ChartId) (author : String) :
    (busEmit bus kind source).length = (busSubscribers bus kind).length ∧
    (∀ n ∈ busSubscribers bus kind, (n, source) ∈ busEmit bus kind source) ∧
    (selectAuthorDeliveries src (some author)).count .stream =
        (if src = some .stream then 0 else 1) ∧
    (selectAuthorDeliveries src (some author)).count .scatter =
        (if src = some .scatter then 0 else 1) ∧
    (selectAuthorDeliveries src (some author)).count .sunburst = 1 ∧
    (selectAuthorDeliveries src (some author)).count .commitGraph =
        (if src = some .commitGraph then 1 else 2) := by
  refine ⟨?_, ?_, ?_, ?_, ?_, ?_⟩
  · exact List.length_map _ _
  · intro n hn
    exact List.mem_map.mpr ⟨n, hn, rfl⟩
  all_goals rcases src with _ | c
  all_goals first
    | rfl
    | (cases c <;> rfl)

/-- C5: the built commit graph has exactly one node per distinct commit
hash (the node hash list is the first-occurrence deduplication of the
commit hashes, hence duplicate-free, covering exactly the input hashes),
and exactly the edges (parent hash, commit hash) whose parent is present
among the built nodes, so every edge's endpoints exist in the node set;
on commits c1 (no parent), c2 (parent c1), c3 (parent missing) it yields
nodes [c1, c2, c3] and the single edge (c1, c2). -/
theorem commit_graph_nodes_and_edges (history : List Commit) :
    ((DataProcessor.processCommitGraph history).nodes.map GraphNode.hash =
        dedupFirst (history.map Commit.hash)) ∧
    ((DataProcessor.processCommitGraph history).nodes.map GraphNode.hash).Nodup ∧
    (∀ hsh, hsh ∈ (DataProcessor.processCommitGraph history).nodes.map
        GraphNode.hash ↔ hsh ∈ history.map Commit.hash) ∧
    (∀ e, e ∈ (DataProcessor.processCommitGraph history).links ↔
        ∃ c ∈ history, e.target = c.hash ∧ e.source ∈ c.parentHashes ∧
          e.source ∈ history.map Commit.hash) ∧
    (∀ e ∈ (DataProcessor.processCommitGraph history).links,
        e.source ∈ (DataProcessor.processCommitGraph history).nodes.map
            GraphNode.hash ∧
        e.target ∈ (DataProcessor.processCommitGraph history).nodes.map
            GraphNode.hash) ∧
    ((DataProcessor.processCommitGraph [exC1, exC2, exC3]).nodes.map
        GraphNode.hash = ["c1", "c2", "c3"]) ∧
    ((DataProcessor.processCommitGraph [exC1, exC2, exC3]).links =
        [{ source := "c1", target := "c2" }]) := by
  have hashes_eq :
      ∀ hs : List String, (∀ hsh ∈ hs, ∃ c ∈ history, c.hash = hsh) →
        ((hs.filterMap (fun hsh =>
            (history.find? (fun c => decide (c.hash = hsh))).map
              commitToGraphNode)).map GraphNode.hash) = hs := by
    intro hs
    induction hs with
    | nil => intro _; rfl
    | cons hsh rest ih =>
        intro hall
        obtain ⟨c, hc, hceq⟩ := hall hsh (List.mem_cons_self _ _)
        have hsome : (history.find? (fun c => decide (c.hash = hsh))).isSome := by
          rw [List.find?_isSome]
          exact ⟨c, hc, by simpa using hceq⟩
        obtain ⟨c0, hc0⟩ := Option.isSome_iff_exists.mp hsome
        have hc0hash : c0.hash = hsh := by
          have := List.find?_some hc0
          simpa using this
        rw [List.filterMap_cons, hc0]
        rw [Option.map_some']
        rw [List.map_cons]
        rw [ih (fun x hx => hall x (List.mem_cons_of_mem _ hx))]
        simp [commitToGraphNode, hc0hash]
  have h1 : (DataProcessor.processCommitGraph history).nodes.map GraphNode.hash =
      dedupFirst (history.map Commit.hash) := by
    apply hashes_eq
    intro hsh hmem
    have : hsh ∈ history.map Commit.hash := mem_dedupFirst.mp hmem
    obtain ⟨c, hc, hceq⟩ := List.mem_map.mp this
    exact ⟨c, hc, hceq⟩
  have h3 : ∀ hsh, hsh ∈ (DataProcessor.processCommitGraph history).nodes.map
      GraphNode.hash ↔ hsh ∈ history.map Commit.hash := by
    intro hsh
    rw [h1, mem_dedupFirst]
  have h4 : ∀ e, e ∈ (DataProcessor.processCommitGraph history).links ↔
      ∃ c ∈ history, e.target = c.hash ∧ e.source ∈ c.parentHashes ∧
        e.source ∈ history.map Commit.hash := by
    intro e
    show e ∈ history.flatMap _ ↔ _
    rw [List.mem_flatMap]
    constructor
    · rintro ⟨c, hc, he⟩
      rw [List.mem_map] at he
      obtain ⟨p, hp, hpe⟩ := he
      rw [List.mem_filter] at hp
      subst hpe
      exact ⟨c, hc, rfl, hp.1, mem_dedupFirst.mp (of_decide_eq_true hp.2)⟩
    · rintro ⟨c, hc, htgt, hsrc, hpresent⟩
      refine ⟨c, hc, ?_⟩
      rw [List.mem_map]
      refine ⟨e.source, ?_, ?_⟩
      · rw [List.mem_filter]
        refine ⟨hsrc, decide_eq_true (mem_dedupFirst.mpr hpresent)⟩
      · cases e
        simp_all
  refine ⟨h1, ?_, h3, h4, ?_, ?_, ?_⟩
  · rw [h1]; exact nodup_dedupFirst _
  · intro e he
    obtain ⟨c, hc, htgt, _, hpresent⟩ := (h4 e).mp he
    constructor
    · rw [h3]
      exact hpresent
    · rw [h3, htgt]
      exact List.mem_map.mpr ⟨c, hc, rfl⟩
  · decide
  · decide

/-! ## Hierarchy lemmas and claims C1 / C3 -/

theorem buildHierList_eq (cs : List FileTree) :
    buildHierList cs = cs.map buildHier := by
  induction cs with
  | nil => rfl
  | cons c rest ih => rw [buildHierList, ih, List.map_cons]

theorem hierNodesList_eq (cs : List HierNode) :
    hierNodesList cs = cs.flatMap hierNodes := by
  induction cs with
  | nil => rfl
  | cons c rest ih => rw [hierNodesList, ih, List.flatMap_cons]

theorem hierLeafAuthorsList_eq (cs : List HierNode) :
    hierLeafAuthorsList cs = cs.flatMap hierLeafAuthors := by
  induction cs with
  | nil => rfl
  | cons c rest ih => rw [hierLeafAuthorsList, ih, List.flatMap_cons]

theorem leafSumList_eq (cs : List FileTree) :
    FileTree.leafSumList cs = (cs.map FileTree.leafSum).sum := by
  induction cs with
  | nil => rfl
  | cons c rest ih => rw [FileTree.leafSumList, ih, List.map_cons, List.sum_cons]

theorem leafValuesOnlyList_iff (cs : List FileTree) :
    leafValuesOnlyList cs = true ↔ ∀ c ∈ cs, leafValuesOnly c = true := by
  induction cs with
  | nil => simp [leafValuesOnlyList]
  | cons c rest ih => simp [leafValuesOnlyList, ih]

theorem authorsOnLeavesOnlyList_iff (cs : List FileTree) :
    authorsOnLeavesOnlyList cs = true ↔ ∀ c ∈ cs, authorsOnLeavesOnly c = true := by
  induction cs with
  | nil => simp [authorsOnLeavesOnlyList]
  | cons c rest ih => simp [authorsOnLeavesOnlyList, ih]

theorem buildHier_node (n : String) (v : Option Nat) (e : Option String)
    (a : List String) (cs : List FileTree) :
    buildHier (.node n v e a cs) =
      .mk n a
        (jsVal v +
          ((sortDescBy HierNode.value (buildHierList cs)).map HierNode.value).sum)
        (dedupFirst
          (a ++ (sortDescBy HierNode.value (buildHierList cs)).flatMap
            HierNode.authors))
        (sortDescBy HierNode.value (buildHierList cs)) := rfl

theorem hierLeafAuthors_mk (n : String) (da : List String) (v : Nat)
    (a : List String) (cs : List HierNode) :
    hierLeafAuthors (.mk n da v a cs) =
      if cs.isEmpty then da else cs.flatMap hierLeafAuthors := by
  cases cs with
  | nil => rfl
  | cons c rest =>
      rw [hierLeafAuthors, hierLeafAuthorsList_eq]
      rfl

theorem self_mem_hierNodes (nd : HierNode) : nd ∈ hierNodes nd := by
  cases nd with
  | mk n da v a cs =>
      rw [hierNodes]
      exact List.mem_cons_self _ _

/-- Value computed by the hierarchy aggregation on a tree whose value
fields sit only on leaves: exactly the sum of the leaf values. -/
theorem buildHier_value :
    ∀ t, leafValuesOnly t = true → (buildHier t).value = FileTree.leafSum t := by
  intro t
  induction t using fileTreeInd with
  | h n v e a cs ih =>
      intro hlv
      cases cs with
      | nil =>
          rw [buildHier_node]
          simp [HierNode.value, buildHierList, sortDescBy, FileTree.leafSum]
      | cons c rest =>
          rw [leafValuesOnly] at hlv
          rw [Bool.and_eq_true] at hlv
          have hv : v = none := Option.isNone_iff_eq_none.mp hlv.1
          have hall := (leafValuesOnlyList_iff _).mp hlv.2
          rw [buildHier_node]
          show jsVal v + _ = _
          have hperm :=
            ((sortDescBy_perm HierNode.value
                (buildHierList (c :: rest))).map HierNode.value).sum_eq
          rw [hperm, buildHierList_eq, List.map_map]
          have hpoint :
              (c :: rest).map (HierNode.value ∘ buildHier) =
                (c :: rest).map FileTree.leafSum :=
            List.map_congr_left (fun x hx => ih x hx (hall x hx))
          rw [hpoint, hv]
          rw [FileTree.leafSum, leafSumList_eq]
          simp [jsVal]

/-- Authors attached by the aggregation at the root of a subtree whose
author lists sit only on leaves: membership coincides with the leaf-author
union beneath it. -/
theorem buildHier_authors :
    ∀ t, authorsOnLeavesOnly t = true →
      ∀ x, (x ∈ (buildHier t).authors ↔ x ∈ hierLeafAuthors (buildHier t)) := by
  intro t
  induction t using fileTreeInd with
  | h n v e a cs ih =>
      intro hao x
      cases cs with
      | nil =>
          rw [buildHier_node]
          show x ∈ dedupFirst (a ++ _) ↔ _
          rw [hierLeafAuthors_mk]
          simp [buildHierList, sortDescBy, HierNode.authors, mem_dedupFirst]
      | cons c rest =>
          rw [authorsOnLeavesOnly] at hao
          rw [Bool.and_eq_true] at hao
          have ha : a = [] := List.isEmpty_iff.mp hao.1
          have hall := (authorsOnLeavesOnlyList_iff _).mp hao.2
          have hne :
              ((sortDescBy HierNode.value
                  (buildHierList (c :: rest))).isEmpty) = false := by
            cases hsort : sortDescBy HierNode.value (buildHierList (c :: rest)) with
            | nil =>
                have hlen :=
                  (sortDescBy_perm HierNode.value
                    (buildHierList (c :: rest))).length_eq
                rw [hsort, buildHierList_eq] at hlen
                simp at hlen
            | cons k ks => rfl
          rw [buildHier_node, hierLeafAuthors_mk]
          simp only [hne, Bool.false_eq_true, if_false]
          show x ∈ dedupFirst (a ++ _) ↔ _
          rw [ha, List.nil_append, mem_dedupFirst, List.mem_flatMap,
            List.mem_flatMap]
          constructor
          · rintro ⟨k, hk, hxk⟩
            have hk2 : k ∈ buildHierList (c :: rest) := mem_sortDescBy.mp hk
            rw [buildHierList_eq] at hk2
            obtain ⟨c0, hc0, hk0⟩ := List.mem_map.mp hk2
            subst hk0
            exact ⟨buildHier c0,
              mem_sortDescBy.mpr (by
                rw [buildHierList_eq]
                exact List.mem_map.mpr ⟨c0, hc0, rfl⟩),
              (ih c0 hc0 (hall c0 hc0) x).mp hxk⟩
          · rintro ⟨k, hk, hxk⟩
            have hk2 : k ∈ buildHierList (c :: rest) := mem_sortDescBy.mp hk
            rw [buildHierList_eq] at hk2
            obtain ⟨c0, hc0, hk0⟩ := List.mem_map.mp hk2
            subst hk0
            exact ⟨buildHier c0,
              mem_sortDescBy.mpr (by
                rw [buildHierList_eq]
                exact List.mem_map.mpr ⟨c0, hc0, rfl⟩),
              (ih c0 hc0 (hall c0 hc0) x).mpr hxk⟩

/-- Extension of buildHier_authors to every node of the built hierarchy. -/
theorem buildHier_all_nodes_authors :
    ∀ t, authorsOnLeavesOnly t = true →
      ∀ nd ∈ hierNodes (buildHier t),
        nd.authors.Nodup ∧
          ∀ x, (x ∈ nd.authors ↔ x ∈ hierLeafAuthors nd) := by
  intro t
  induction t using fileTreeInd with
  | h n v e a cs ih =>
      intro hao nd hnd
      rw [buildHier_node, hierNodes] at hnd
      rcases List.mem_cons.mp hnd with hroot | hdesc
      · subst hroot
        constructor
        · show (dedupFirst _).Nodup
          exact nodup_dedupFirst _
        · intro x
          have := buildHier_authors (.node n v e a cs) hao x
          rw [buildHier_node] at this
          exact this
      · rw [hierNodesList_eq, List.mem_flatMap] at hdesc
        obtain ⟨k, hk, hndk⟩ := hdesc
        have hk2 : k ∈ buildHierList cs := mem_sortDescBy.mp hk
        rw [buildHierList_eq] at hk2
        obtain ⟨c0, hc0, hk0⟩ := List.mem_map.mp hk2
        subst hk0
        have hao0 : authorsOnLeavesOnly c0 = true := by
          cases cs with
          | nil => cases hc0
          | cons c rest =>
              rw [authorsOnLeavesOnly, Bool.and_eq_true] at hao
              exact (authorsOnLeavesOnlyList_iff _).mp hao.2 c0 hc0
        exact ih c0 hc0 hao0 nd hndk

/-- C1: for a file tree in which only leaves carry a value field,
processHierarchy returns a root whose computed value is the sum of all leaf
values, a missing leaf value counting as 0. -/
theorem hierarchy_value_sums_leaves (t : FileTree)
    (h : leafValuesOnly t = true) :
    (DataProcessor.processHierarchy (some t)).map HierNode.value =
      some (FileTree.leafSum t) :=
  congrArg some (buildHier_value t h)

theorem hierarchy_value_sums_leaves_witness :
    leafValuesOnly exTree = true ∧
    (DataProcessor.processHierarchy (some exTree)).map HierNode.value =
      some 150 :=
  ⟨by decide, (hierarchy_value_sums_leaves exTree (by decide)).trans (by decide)⟩

/-- C3: for a file tree whose author lists sit on leaves, every node of the
hierarchy returned by processHierarchy carries a duplicate-free authors
list whose membership coincides exactly with the union of the author lists
of the leaves beneath that node. -/
theorem hierarchy_authors_union (t : FileTree)
    (h : authorsOnLeavesOnly t = true) :
    ∀ root, DataProcessor.processHierarchy (some t) = some root →
      ∀ nd ∈ hierNodes root,
        nd.authors.Nodup ∧
          ∀ x, (x ∈ nd.authors ↔ x ∈ hierLeafAuthors nd) := by
  intro root hroot
  have heq : root = buildHier t := (Option.some.inj hroot).symm
  subst heq
  exact buildHier_all_nodes_authors t h

theorem hierarchy_authors_union_witness :
    authorsOnLeavesOnly exTree = true ∧
    ("alice" ∈ (buildHier exTree).authors ↔
      "alice" ∈ hierLeafAuthors (buildHier exTree)) :=
  ⟨by decide,
    (hierarchy_authors_union exTree (by decide) (buildHier exTree) rfl
      (buildHier exTree) (self_mem_hierNodes _)).2 "alice"⟩

/-! ## Streamgraph lemmas and claims C2 / C7 -/

namespace DataProcessor

/-- Fold characterization of the weekly column accumulation. -/
theorem colsOf_foldl (top : List String) (commits : List Commit)
    (m : String → Nat) (k : String) :
    (commits.foldl (fun m c => bumpCol m (bucketKey top c) c.insertions) m) k
      = m k + ((commits.filter
          (fun c => decide (bucketKey top c = k))).map Commit.insertions).sum := by
  induction commits generalizing m with
  | nil => simp
  | cons c cs ih =>
      rw [List.foldl_cons, ih, List.filter_cons]
      by_cases hk : bucketKey top c = k
      · rw [if_pos (decide_eq_true hk)]
        show (if k = bucketKey top c then m k + c.insertions else m k) + _ = _
        rw [if_pos hk.symm, List.map_cons, List.sum_cons]
        omega
      · rw [if_neg (by simp [hk])]
        show (if k = bucketKey top c then m k + c.insertions else m k) + _ = _
        rw [if_neg (fun hkk => hk hkk.symm)]

/-- A weekly row's column holds exactly the insertion total of the commits
bucketed under that column. -/
theorem colsOf_apply (top : List String) (commits : List Commit) (k : String) :
    colsOf top commits k =
      ((commits.filter (fun c => decide (bucketKey top c = k))).map
        Commit.insertions).sum := by
  have h := colsOf_foldl top commits (fun _ => 0) k
  simpa [colsOf] using h

theorem authorTotals_fst (h : List Commit) :
    (authorTotals h).map Prod.fst = dedupFirst (h.map Commit.author) := by
  rw [authorTotals, List.map_map]
  rw [show (Prod.fst ∘ fun a : String => (a, totalInsertions h a)) = id from rfl]
  rw [List.map_id]

theorem topAuthors_nodup (h : List Commit) : (topAuthors h).Nodup := by
  rw [topAuthors, List.map_take]
  refine (List.take_sublist _ _).nodup ?_
  have hperm := (sortDescBy_perm Prod.snd (authorTotals h)).map Prod.fst
  rw [hperm.nodup_iff, authorTotals_fst]
  exact nodup_dedupFirst _

theorem mem_topAuthors_subset {h : List Commit} {a : String}
    (ha : a ∈ topAuthors h) : a ∈ h.map Commit.author := by
  rw [topAuthors, List.map_take] at ha
  have ha2 := List.mem_of_mem_take ha
  rw [((sortDescBy_perm Prod.snd (authorTotals h)).map Prod.fst).mem_iff,
    authorTotals_fst, mem_dedupFirst] at ha2
  exact ha2

/-- C2 amended: provided no commit author carries the reserved label Others,
summing every key column of processCommitsByAuthor over all rows yields
exactly the total insertions across the input commits. -/
theorem series_total_conservation (history : List Commit)
    (hno : otherLabel ∉ history.map Commit.author) :
    seriesGrandTotal (processCommitsByAuthor (some history)) =
      (history.map Commit.insertions).sum := by
  by_cases hemp : history.isEmpty
  · have hnil : history = [] := List.isEmpty_iff.mp hemp
    subst hnil
    rfl
  · have hred : processCommitsByAuthor (some history) =
        processCommitsByAuthorNE history := by
      simp [processCommitsByAuthor, hemp]
    rw [hred]
    set ch := cleanHistory history with hch
    set top := topAuthors ch with htop
    set rows0 := weekRows ch top with hrows0
    set rows := sortAscBy SeriesRow.date rows0 with hrows
    set K := top ++ (if hasOthersRow rows then [otherLabel] else []) with hK
    have hAperm : List.Perm (ch.map Commit.author) (history.map Commit.author) :=
      (sortAscBy_perm Commit.date history).map _
    have hnotop : otherLabel ∉ top := fun hc =>
      hno (hAperm.mem_iff.mp (mem_topAuthors_subset hc))
    have hKnd : K.Nodup := by
      rw [hK]
      by_cases ho : hasOthersRow rows
      · rw [if_pos ho, List.nodup_append]
        refine ⟨topAuthors_nodup ch, List.nodup_singleton _, ?_⟩
        intro a ha hb
        rw [List.mem_singleton] at hb
        subst hb
        exact hnotop ha
      · rw [if_neg ho, List.append_nil]
        exact topAuthors_nodup ch
    show seriesGrandTotal { data := rows, keys := K } = _
    rw [seriesGrandTotal]
    have h1 : (rows.map (fun r => (K.map r.cols).sum)).sum
        = (rows0.map (fun r => (K.map r.cols).sum)).sum :=
      ((sortAscBy_perm SeriesRow.date rows0).map _).sum_eq
    have hpoint : ∀ g ∈ groupByFirst (fun c => timeWeek c.date) ch,
        (K.map (colsOf top g.2)).sum = (g.2.map Commit.insertions).sum := by
      intro g hg
      have hcols : K.map (colsOf top g.2)
          = K.map (fun k => ((g.2.filter
              (fun c => decide (bucketKey top c = k))).map Commit.insertions).sum) :=
        List.map_congr_left (fun k _ => colsOf_apply top g.2 k)
      rw [hcols, sum_filter_partition _ _ hKnd]
      apply sum_filter_eq_sum_of_zero
      intro c hc hcf
      by_contra hpos0
      have hpos : 0 < c.insertions := Nat.pos_of_ne_zero hpos0
      have hbk : bucketKey top c ∈ K := by
        by_cases hat : c.author ∈ top
        · rw [hK]
          refine List.mem_append_left _ ?_
          rw [bucketKey, if_pos hat]
          exact hat
        · have hbO : bucketKey top c = otherLabel := by
            rw [bucketKey, if_neg hat]
          have hrowmem : ({ date := g.1, cols := colsOf top g.2 } : SeriesRow)
              ∈ rows0 := by
            rw [hrows0, weekRows]
            exact List.mem_map.mpr ⟨g, hg, rfl⟩
          have hrowmem2 : ({ date := g.1, cols := colsOf top g.2 } : SeriesRow)
              ∈ rows :=
            (sortAscBy_perm SeriesRow.date rows0).mem_iff.mpr hrowmem
          have hcolpos : 0 < colsOf top g.2 otherLabel := by
            rw [colsOf_apply]
            have hcfil : c ∈ g.2.filter
                (fun c => decide (bucketKey top c = otherLabel)) :=
              List.mem_filter.mpr ⟨hc, by rw [hbO]; exact decide_eq_true rfl⟩
            have hle : c.insertions ≤
                ((g.2.filter (fun c => decide (bucketKey top c = otherLabel))).map
                  Commit.insertions).sum :=
              List.single_le_sum (fun x _ => Nat.zero_le x) _
                (List.mem_map.mpr ⟨c, hcfil, rfl⟩)
            omega
          have hOthers : hasOthersRow rows = true := by
            rw [hasOthersRow, List.any_eq_true]
            exact ⟨_, hrowmem2, decide_eq_true hcolpos⟩
          rw [hK, hbO]
          refine List.mem_append_right _ ?_
          rw [hOthers]
          exact List.mem_singleton.mpr rfl
      exact absurd hbk (by simpa using hcf)
    have h2 : (rows0.map (fun r => (K.map r.cols).sum)).sum
        = ((groupByFirst (fun c => timeWeek c.date) ch).map
            (fun g => (g.2.map Commit.insertions).sum)).sum := by
      rw [hrows0, weekRows, List.map_map]
      refine congrArg List.sum ?_
      refine List.map_congr_left ?_
      intro g hg
      show (K.map (colsOf top g.2)).sum = _
      exact hpoint g hg
    have h3 : ((groupByFirst (fun c => timeWeek c.date) ch).map
          (fun g => (g.2.map Commit.insertions).sum)).sum
        = (ch.map Commit.insertions).sum := by
      rw [groupByFirst, List.map_map]
      have hpart := sum_filter_partition (fun c => timeWeek c.date)
        Commit.insertions (nodup_dedupFirst (ch.map fun c => timeWeek c.date)) ch
      have hfull : ch.filter (fun x =>
          decide (timeWeek x.date ∈ dedupFirst (ch.map fun c => timeWeek c.date)))
            = ch :=
        List.filter_eq_self.mpr (fun x hx =>
          decide_eq_true (mem_dedupFirst.mpr (List.mem_map.mpr ⟨x, hx, rfl⟩)))
      rw [hfull] at hpart
      exact hpart
    have h4 : (ch.map Commit.insertions).sum
        = (history.map Commit.insertions).sum :=
      ((sortAscBy_perm Commit.date history).map Commit.insertions).sum_eq
    rw [h1, h2, h3, h4]

theorem totalInsertions_clean (history : List Commit) (a : String) :
    totalInsertions (cleanHistory history) a = totalInsertions history a := by
  rw [totalInsertions, totalInsertions]
  exact (((sortAscBy_perm Commit.date history).filter _).map Commit.insertions).sum_eq

theorem authorTotals_pairwise (h : List Commit) :
    (authorTotals h).Pairwise (fun p q =>
      (h.map Commit.author).indexOf p.1 < (h.map Commit.author).indexOf q.1) := by
  rw [authorTotals, List.pairwise_map]
  exact pairwise_indexOf_dedupFirst _

theorem authorTotals_snd {h : List Commit} {p : String × Nat}
    (hp : p ∈ authorTotals h) : p.2 = totalInsertions h p.1 := by
  rw [authorTotals] at hp
  obtain ⟨a, ha, rfl⟩ := List.mem_map.mp hp
  rfl

theorem authorTotals_fst_mem {h : List Commit} {p : String × Nat}
    (hp : p ∈ authorTotals h) : p.1 ∈ h.map Commit.author := by
  have hm : p.1 ∈ (authorTotals h).map Prod.fst := List.mem_map.mpr ⟨p, hp, rfl⟩
  rw [authorTotals_fst, mem_dedupFirst] at hm
  exact hm

/-- The sorted author totals are ordered by total descending, ties by first
appearance in the input (stability of the sort). -/
theorem sorted_totals_pairwise (h : List Commit) :
    (sortDescBy Prod.snd (authorTotals h)).Pairwise (fun p q =>
      q.2 < p.2 ∨ (p.2 = q.2 ∧
        (h.map Commit.author).indexOf p.1 <
          (h.map Commit.author).indexOf q.1)) :=
  sortDescBy_pairwise (authorTotals_pairwise h)

theorem topAuthors_length (h : List Commit) : (topAuthors h).length ≤ 10 := by
  rw [topAuthors, List.length_map]
  exact List.length_take_le _ _

/-- The selected author list is ordered by total insertions descending,
ties broken by first appearance. -/
theorem topAuthors_pairwise (h : List Commit) :
    (topAuthors h).Pairwise (fun a b =>
      totalInsertions h b < totalInsertions h a ∨
        (totalInsertions h a = totalInsertions h b ∧
          (h.map Commit.author).indexOf a < (h.map Commit.author).indexOf b)) := by
  rw [topAuthors, List.pairwise_map]
  have hsub : List.Sublist ((sortDescBy Prod.snd (authorTotals h)).take 10)
      (sortDescBy Prod.snd (authorTotals h)) := List.take_sublist _ _
  have hp := (sorted_totals_pairwise h).sublist hsub
  refine List.Pairwise.imp_of_mem ?_ hp
  intro p q hpmem hqmem hpq
  have hpA : p ∈ authorTotals h :=
    (sortDescBy_perm _ _).mem_iff.mp (hsub.subset hpmem)
  have hqA : q ∈ authorTotals h :=
    (sortDescBy_perm _ _).mem_iff.mp (hsub.subset hqmem)
  have hps := authorTotals_snd hpA
  have hqs := authorTotals_snd hqA
  rw [hps, hqs] at hpq
  exact hpq

/-- The author with the strictly highest total is always selected. -/
theorem topAuthors_mem_max (h : List Commit) (amax : String)
    (hmem : amax ∈ h.map Commit.author)
    (hstrict : ∀ b ∈ h.map Commit.author, b ≠ amax →
      totalInsertions h b < totalInsertions h amax) :
    amax ∈ topAuthors h := by
  have hA : amax ∈ dedupFirst (h.map Commit.author) := mem_dedupFirst.mpr hmem
  have hpm : (amax, totalInsertions h amax) ∈ authorTotals h := by
    rw [authorTotals]
    exact List.mem_map.mpr ⟨amax, hA, rfl⟩
  have hpmS : (amax, totalInsertions h amax) ∈
      sortDescBy Prod.snd (authorTotals h) :=
    (sortDescBy_perm _ _).mem_iff.mpr hpm
  cases hsort : sortDescBy Prod.snd (authorTotals h) with
  | nil =>
      rw [hsort] at hpmS
      cases hpmS
  | cons p0 restS =>
      by_cases hp0 : p0.1 = amax
      · rw [topAuthors, hsort]
        rw [show (10 : Nat) = 9 + 1 from rfl, List.take_succ_cons, List.map_cons]
        rw [hp0]
        exact List.mem_cons_self _ _
      · exfalso
        rw [hsort] at hpmS
        have hpmrest : (amax, totalInsertions h amax) ∈ restS := by
          rcases List.mem_cons.mp hpmS with heq | hrest
          · exact absurd (congrArg Prod.fst heq).symm hp0
          · exact hrest
        have hQ := sorted_totals_pairwise h
        rw [hsort, List.pairwise_cons] at hQ
        have hrel := hQ.1 _ hpmrest
        have hp0A : p0 ∈ authorTotals h :=
          (sortDescBy_perm _ _).mem_iff.mp
            (by rw [hsort]; exact List.mem_cons_self _ _)
        have hp0snd := authorTotals_snd hp0A
        have hp0mem := authorTotals_fst_mem hp0A
        have hlt := hstrict p0.1 hp0mem hp0
        dsimp only at hrel
        rcases hrel with hcase | ⟨hceq, _⟩
        · rw [hp0snd] at hcase
          omega
        · rw [hp0snd] at hceq
          omega

/-- C7: processCommitsByAuthor selects at most 10 authors ordered by total
insertions descending with ties broken by first appearance in the
timestamp-sorted input; the key list is those authors in rank order
followed by Others exactly when some row has a positive Others column; and
the author with the single highest total insertions is always among the
keys. -/
theorem streamgraph_top_selection (history : List Commit) (amax : String)
    (hmem : amax ∈ history.map Commit.author)
    (hstrict : ∀ b ∈ history.map Commit.author, b ≠ amax →
      totalInsertions history b < totalInsertions history amax) :
    (processCommitsByAuthor (some history)).keys =
        topAuthors (cleanHistory history) ++
          (if hasOthersRow (processCommitsByAuthor (some history)).data
            then [otherLabel] else []) ∧
    (topAuthors (cleanHistory history)).length ≤ 10 ∧
    (topAuthors (cleanHistory history)).Pairwise (fun a b =>
      totalInsertions history b < totalInsertions history a ∨
        (totalInsertions history a = totalInsertions history b ∧
          ((cleanHistory history).map Commit.author).indexOf a <
            ((cleanHistory history).map Commit.author).indexOf b)) ∧
    amax ∈ (processCommitsByAuthor (some history)).keys := by
  have hne : history.isEmpty = false := by
    cases history with
    | nil => simp at hmem
    | cons c rest => rfl
  have hred : processCommitsByAuthor (some history) =
      processCommitsByAuthorNE history := by
    simp [processCommitsByAuthor, hne]
  refine ⟨?_, topAuthors_length _, ?_, ?_⟩
  · rw [hred]
    rfl
  · have hp := topAuthors_pairwise (cleanHistory history)
    refine List.Pairwise.imp ?_ hp
    intro a b hab
    simpa [totalInsertions_clean] using hab
  · rw [hred]
    show amax ∈ topAuthors (cleanHistory history) ++ _
    refine List.mem_append_left _ ?_
    have hperm : List.Perm ((cleanHistory history).map Commit.author)
        (history.map Commit.author) :=
      (sortAscBy_perm Commit.date history).map _
    apply topAuthors_mem_max
    · rw [hperm.mem_iff]
      exact hmem
    · intro b hb hbne
      rw [totalInsertions_clean, totalInsertions_clean]
      exact hstrict b (hperm.mem_iff.mp hb) hbne

end DataProcessor

/-- C2 counterexample: with a single commit whose author is literally named
Others, the key list contains Others twice (once as a selected author, once
as the overflow column), so the sum of all key columns over all rows is 10
while the total insertions are 5. -/
theorem series_total_counterexample :
    DataProcessor.seriesGrandTotal
        (DataProcessor.processCommitsByAuthor (some [exOthersCommit])) = 10 ∧
    ([exOthersCommit].map Commit.insertions).sum = 5 ∧
    DataProcessor.seriesGrandTotal
        (DataProcessor.processCommitsByAuthor (some [exOthersCommit])) ≠
      ([exOthersCommit].map Commit.insertions).sum := by
  refine ⟨?_, ?_, ?_⟩ <;> decide

theorem series_total_conservation_witness :
    DataProcessor.otherLabel ∉ [exA1, exA2, exA3].map Commit.author ∧
    DataProcessor.seriesGrandTotal
        (DataProcessor.processCommitsByAuthor (some [exA1, exA2, exA3])) = 35 :=
  ⟨by decide,
    (DataProcessor.series_total_conservation [exA1, exA2, exA3]
      (by decide)).trans (by decide)⟩

theorem streamgraph_top_selection_witness :
    ("alice" ∈ [exA1, exB1].map Commit.author) ∧
    ("alice" ∈ (DataProcessor.processCommitsByAuthor (some [exA1, exB1])).keys) :=
  ⟨by decide,
    (DataProcessor.streamgraph_top_selection [exA1, exB1] "alice" (by decide)
      (by decide)).2.2.2⟩

end GitVisual
